import Mathlib

/-!
Verification development for the SimWorld procedural city generator.

Coordinates are modelled exactly as rational numbers; Python floats become
`ℚ` (and `ℝ` where the source computes square roots or trigonometry).
Each definition mirrors one Python function or class of the repository;
the source location is recorded in its doc comment.
-/

/-- Mirror of `simworld.citygen.dataclass.Point`: a 2-D coordinate.
The generated dataclass equality is structural on the exact coordinates. -/
@[ext]
structure Point where
  x : ℚ
  y : ℚ
deriving DecidableEq, Repr

namespace MathUtils

/-- Mirror of `MathUtils.subtract_points` (utils/math_utils.py). -/
def subtract_points (p1 p2 : Point) : Point := ⟨p1.x - p2.x, p1.y - p2.y⟩

/-- Mirror of `MathUtils.add_points` (utils/math_utils.py). -/
def add_points (p1 p2 : Point) : Point := ⟨p1.x + p2.x, p1.y + p2.y⟩

/-- Mirror of `MathUtils.cross_product` (utils/math_utils.py). -/
def cross_product (a b : Point) : ℚ := a.x * b.y - a.y * b.x

/-- Mirror of `MathUtils.dot_product` (utils/math_utils.py). -/
def dot_product (a b : Point) : ℚ := a.x * b.x + a.y * b.y

/-- The local variable `e` of `do_line_segments_intersect`
(utils/math_utils.py): `cross(p - a, d_rel) / k`, the intersection parameter
along segment (a, b). -/
def eParam (a b p d : Point) : ℚ :=
  cross_product (subtract_points p a) (subtract_points d p) /
    cross_product (subtract_points b a) (subtract_points d p)

/-- The local variable `f` of `do_line_segments_intersect`
(utils/math_utils.py): `cross(p - a, b_rel) / k`, the intersection parameter
along segment (p, d). -/
def fParam (a b p d : Point) : ℚ :=
  cross_product (subtract_points p a) (subtract_points b a) /
    cross_product (subtract_points b a) (subtract_points d p)

/-- Mirror of `MathUtils.do_line_segments_intersect` (utils/math_utils.py):
segment (a,b) against segment (p,d); returns the intersection point and the
parameter `e` along (a,b) when both parameters lie strictly inside
`(buffer, 1 - buffer)`, and `none` otherwise (in particular when the
direction cross product `k` is zero). The local variables `e` and `f` of the
Python body are the named definitions `eParam` and `fParam`. -/
def do_line_segments_intersect (a b p d : Point) (buffer : ℚ) :
    Option (Point × ℚ) :=
  if cross_product (subtract_points b a) (subtract_points d p) = 0 then none
  else if buffer < eParam a b p d ∧ eParam a b p d < 1 - buffer ∧
      buffer < fParam a b p d ∧ fParam a b p d < 1 - buffer then
    some (⟨a.x + eParam a b p d * (subtract_points b a).x,
           a.y + eParam a b p d * (subtract_points b a).y⟩, eParam a b p d)
  else none

end MathUtils

/-- Mirror of `simworld.citygen.dataclass.Bounds`: an axis-aligned rectangle
with bottom-left corner (x, y), a width, a height and a rotation hint. -/
structure Bounds where
  x : ℚ
  y : ℚ
  width : ℚ
  height : ℚ
  rotation : ℚ := 0
deriving DecidableEq, Repr

/-- Mirror of the Python dataclass equality of `Point` (generated `__eq__`):
structural comparison of the exact coordinates, with no rounding. -/
def point_py_eq (p q : Point) : Bool :=
  (p.x == q.x) && (p.y == q.y)

/-- The key on which `Point.__hash__` depends: `hash((self.x, self.y))` is a
function of the exact coordinate pair, so equal keys give equal hashes. -/
def point_hash_key (p : Point) : ℚ × ℚ := (p.x, p.y)

/-- Modelled from the spec: rounding a coordinate to 4 decimal places.
The source `Point` performs no rounding; this definition exists only to
state the spec-side hypothesis of the rounding claim. -/
def round4 (q : ℚ) : ℚ := (round (q * 10000) : ℤ) / 10000

/-- Mirror of `simworld.citygen.dataclass.MetaInfo`. -/
structure MetaInfo where
  highway : Bool := false
  t : ℚ := 0
deriving DecidableEq, Repr

/-- Mirror of `simworld.citygen.dataclass.Segment`: an ordered pair of
points plus metadata. The Python attribute `end` is `end2` here because
`end` is reserved in Lean. -/
structure Segment where
  start : Point
  end2 : Point
  q : MetaInfo := {}
deriving DecidableEq, Repr

/-- Python `math.atan2(y, x)`: the full-quadrant arctangent. -/
noncomputable def atan2 (y x : ℝ) : ℝ :=
  if 0 < x then Real.arctan (y / x)
  else if x < 0 ∧ 0 ≤ y then Real.arctan (y / x) + Real.pi
  else if x < 0 ∧ y < 0 then Real.arctan (y / x) - Real.pi
  else if x = 0 ∧ 0 < y then Real.pi / 2
  else if x = 0 ∧ y < 0 then -(Real.pi / 2)
  else 0

/-- Mirror of `Segment.get_angle` (citygen/dataclass/dataclass.py):
`math.degrees(math.atan2(dy, dx))` for `dx, dy = end - start`. -/
noncomputable def Segment.get_angle (s : Segment) : ℝ :=
  atan2 ((s.end2.y : ℝ) - (s.start.y : ℝ)) ((s.end2.x : ℝ) - (s.start.x : ℝ))
    * 180 / Real.pi

/-- Mirror of `simworld.citygen.dataclass.BuildingType`. -/
structure BuildingType where
  name : String
  width : ℚ
  height : ℚ
  is_required : Bool := false
deriving DecidableEq, Repr

/-- Mirror of `simworld.citygen.dataclass.Building`: the dataclass fields,
including the derived `center`, `width`, `height` set by `__post_init__`. -/
structure Building where
  building_type : BuildingType
  bounds : Bounds
  rotation : ℚ
  center : Point
  width : ℚ
  height : ℚ
deriving DecidableEq, Repr

namespace Building

/-- Mirror of `Building.__post_init__` (citygen/dataclass/dataclass.py):
overwrites `center`, `width`, `height` and `rotation` from `bounds`. -/
def post_init (b : Building) : Building :=
  { b with
    center := ⟨b.bounds.x + b.bounds.width / 2, b.bounds.y + b.bounds.height / 2⟩
    width := b.bounds.width
    height := b.bounds.height
    rotation := b.bounds.rotation }

/-- Construction of a `Building` as the Python dataclass constructor does it:
the caller supplies `building_type`, `bounds` and a `rotation` argument; the
fields marked `init=False` start unset (modelled by zero placeholders) and
`__post_init__` then fills every derived field from `bounds`. -/
def mk' (bt : BuildingType) (bounds : Bounds) (rotation : ℚ) : Building :=
  post_init
    { building_type := bt, bounds := bounds, rotation := rotation
      center := ⟨0, 0⟩, width := 0, height := 0 }

end Building

/-- C9: every constructed Building has `rotation = bounds.rotation` (any
rotation argument passed to the constructor is overridden), `width` and
`height` equal to those of `bounds`, and `center` equal to the centre of
`bounds`, namely `(bounds.x + bounds.width / 2, bounds.y + bounds.height / 2)`. -/
theorem building_post_init_invariant (bt : BuildingType) (bounds : Bounds)
    (rotation : ℚ) :
    (Building.mk' bt bounds rotation).rotation = bounds.rotation ∧
    (Building.mk' bt bounds rotation).width = bounds.width ∧
    (Building.mk' bt bounds rotation).height = bounds.height ∧
    (Building.mk' bt bounds rotation).center =
      ⟨bounds.x + bounds.width / 2, bounds.y + bounds.height / 2⟩ ∧
    (Building.mk' bt bounds rotation).building_type = bt ∧
    (Building.mk' bt bounds rotation).bounds = bounds :=
  ⟨rfl, rfl, rfl, rfl, rfl, rfl⟩

namespace MathUtils

/-- Algebraic fact: the two parametric representations of the intersection
point agree componentwise when the direction cross product is non-zero. -/
theorem param_component_identity (ux uy brx bry drx dry : ℚ)
    (hk : brx * dry - bry * drx ≠ 0) :
    (ux * dry - uy * drx) / (brx * dry - bry * drx) * brx
      - (ux * bry - uy * brx) / (brx * dry - bry * drx) * drx = ux ∧
    (ux * dry - uy * drx) / (brx * dry - bry * drx) * bry
      - (ux * bry - uy * brx) / (brx * dry - bry * drx) * dry = uy := by
  constructor
  · field_simp
    ring
  · field_simp
    ring

/-- C4: `do_line_segments_intersect` returns `some (pt, e)` only when the
cross product of the two direction vectors is non-zero and both intersection
parameters lie strictly inside `(buffer, 1 - buffer)`; the returned point is
`a + e * (b - a)` and also equals `p + f * (d - p)`, so it lies on both
segments. It returns `none` when the segments are parallel (zero cross
product), and when either parameter falls within `buffer` of an endpoint
(outside the open interval), so T-junctions at endpoints are not reported. -/
theorem do_line_segments_intersect_spec (a b p d : Point) (buffer : ℚ) :
    (cross_product (subtract_points b a) (subtract_points d p) = 0 →
      do_line_segments_intersect a b p d buffer = none) ∧
    (∀ pt e, do_line_segments_intersect a b p d buffer = some (pt, e) →
      cross_product (subtract_points b a) (subtract_points d p) ≠ 0 ∧
      e = eParam a b p d ∧
      buffer < e ∧ e < 1 - buffer ∧
      buffer < fParam a b p d ∧ fParam a b p d < 1 - buffer ∧
      pt = ⟨a.x + e * (b.x - a.x), a.y + e * (b.y - a.y)⟩ ∧
      pt = ⟨p.x + fParam a b p d * (d.x - p.x),
            p.y + fParam a b p d * (d.y - p.y)⟩) ∧
    (cross_product (subtract_points b a) (subtract_points d p) ≠ 0 →
      ¬(buffer < eParam a b p d ∧ eParam a b p d < 1 - buffer ∧
        buffer < fParam a b p d ∧ fParam a b p d < 1 - buffer) →
      do_line_segments_intersect a b p d buffer = none) := by
  refine ⟨?_, ?_, ?_⟩
  · intro hk
    simp [do_line_segments_intersect, hk]
  · intro pt e hsome
    unfold do_line_segments_intersect at hsome
    split_ifs at hsome with hk hcond
    injection hsome with hpair
    injection hpair with hpt he
    subst he
    obtain ⟨h1, h2, h3, h4⟩ := hcond
    have hk' : (b.x - a.x) * (d.y - p.y) - (b.y - a.y) * (d.x - p.x) ≠ 0 := by
      simpa [cross_product, subtract_points] using hk
    have hid := param_component_identity (p.x - a.x) (p.y - a.y)
      (b.x - a.x) (b.y - a.y) (d.x - p.x) (d.y - p.y) hk'
    refine ⟨hk, rfl, h1, h2, h3, h4, ?_, ?_⟩
    · rw [← hpt]
      simp [subtract_points]
    · rw [← hpt]
      simp only [subtract_points, eParam, fParam, cross_product, Point.mk.injEq]
      constructor
      · linear_combination hid.1
      · linear_combination hid.2
  · intro hk hcond
    unfold do_line_segments_intersect
    rw [if_neg hk, if_neg hcond]

/-- Witness for C4 at a concrete crossing: segments (0,0)-(1,0) and
(1/2,-1)-(1/2,1) with buffer 1/100 intersect at (1/2, 0) with e = 1/2. -/
theorem do_line_segments_intersect_spec_witness :
    cross_product (subtract_points ⟨1, 0⟩ ⟨0, 0⟩)
        (subtract_points ⟨1/2, 1⟩ ⟨1/2, -1⟩) ≠ 0 ∧
    (1/2 : ℚ) = eParam ⟨0, 0⟩ ⟨1, 0⟩ ⟨1/2, -1⟩ ⟨1/2, 1⟩ ∧
    (1/100 : ℚ) < 1/2 ∧ (1/2 : ℚ) < 1 - 1/100 ∧
    (1/100 : ℚ) < fParam ⟨0, 0⟩ ⟨1, 0⟩ ⟨1/2, -1⟩ ⟨1/2, 1⟩ ∧
    fParam ⟨0, 0⟩ ⟨1, 0⟩ ⟨1/2, -1⟩ ⟨1/2, 1⟩ < 1 - 1/100 ∧
    (⟨1/2, 0⟩ : Point) = ⟨(0 : ℚ) + (1/2 : ℚ) * ((1 : ℚ) - 0), (0 : ℚ) + (1/2 : ℚ) * ((0 : ℚ) - 0)⟩ ∧
    (⟨1/2, 0⟩ : Point) =
      ⟨(1/2 : ℚ) + fParam ⟨0, 0⟩ ⟨1, 0⟩ ⟨1/2, -1⟩ ⟨1/2, 1⟩ * ((1/2 : ℚ) - 1/2),
       (-1 : ℚ) + fParam ⟨0, 0⟩ ⟨1, 0⟩ ⟨1/2, -1⟩ ⟨1/2, 1⟩ * ((1 : ℚ) - (-1))⟩ :=
  (do_line_segments_intersect_spec ⟨0, 0⟩ ⟨1, 0⟩ ⟨1/2, -1⟩ ⟨1/2, 1⟩ (1/100)).2.1
    ⟨1/2, 0⟩ (1/2)
    (by norm_num [do_line_segments_intersect, eParam, fParam, cross_product,
      subtract_points])

end MathUtils

/-- Mirror of `simworld.citygen.dataclass.ElementType`. -/
structure ElementType where
  name : String
  width : ℚ
  height : ℚ
deriving DecidableEq, Repr

/-- Mirror of `simworld.citygen.dataclass.Element`: the dataclass fields,
including the `center` set by `__post_init__`. -/
structure Element where
  element_type : ElementType
  bounds : Bounds
  rotation : ℚ := 0
  center : Point
  building : Option Building := none
deriving DecidableEq, Repr

namespace Element

/-- Mirror of `Element.__post_init__`: overwrites `center` with the centre
of `bounds`. -/
def post_init (e : Element) : Element :=
  { e with
    center := ⟨e.bounds.x + e.bounds.width / 2, e.bounds.y + e.bounds.height / 2⟩ }

/-- Construction of an `Element` as the Python dataclass constructor does
it: `center` starts unset (zero placeholder) and `__post_init__` fills it. -/
def mk' (et : ElementType) (bounds : Bounds) (rotation : ℚ := 0)
    (building : Option Building := none) : Element :=
  post_init
    { element_type := et, bounds := bounds, rotation := rotation
      center := ⟨0, 0⟩, building := building }

end Element

/-- Mirror of `simworld.citygen.dataclass.Route`. The Python attribute
`end` is `end2` here because `end` is reserved in Lean. -/
structure Route where
  points : List Point
  start : Point
  end2 : Point
deriving DecidableEq, Repr

/-- Mirror of `simworld.citygen.route.route_manager.RouteManager`: holds the
list of recorded routes. -/
structure RouteManager where
  routes : List Route
deriving DecidableEq, Repr

/-- Mirror of `RouteManager.add_route_points` (route/route_manager.py):
builds a Route from `points[0]`, `points[-1]` and appends it. Indexing an
empty list raises in Python, modelled by `none`. -/
def RouteManager.add_route_points (m : RouteManager) (points : List Point) :
    Option RouteManager :=
  match points.head?, points.getLast? with
  | some s, some e => some ⟨m.routes ++ [⟨points, s, e⟩]⟩
  | _, _ => none

/-- Mirror of `RouteGenerator.generate_route_based_on_elements`
(route/route_generator.py): `num_points = 2`; one element is drawn by
`random.sample(elements, 1)[0]` — the draw is modelled by the explicit
index `pick` — and its centre is appended `num_points` times; the result is
recorded via `add_route_points`. An out-of-range draw (empty list) raises
in Python, modelled by `none`. -/
def generate_route_based_on_elements (m : RouteManager)
    (elements : List Element) (pick : ℕ) : Option RouteManager :=
  match elements.get? pick with
  | some el => m.add_route_points [el.center, el.center]
  | none => none

/-- A concrete element used by route and removal scenarios. -/
def elDemo : Element := Element.mk' ⟨"Trees", 2, 2⟩ ⟨10, 10, 2, 2, 0⟩

/-- C7 counterexample: with a single element whose centre is `c`, the run
records a Route whose point sequence is `[c, c]` — two points, not the
single point the claim describes. -/
theorem generate_route_two_points_counterexample :
    (generate_route_based_on_elements ⟨[]⟩ [elDemo] 0).map
        (fun m => m.routes.map Route.points) =
      some [[elDemo.center, elDemo.center]] ∧
    ([elDemo.center, elDemo.center] : List Point) ≠ [elDemo.center] := by
  constructor
  · simp [generate_route_based_on_elements, RouteManager.add_route_points]
  · simp

/-- C7 (amended): for every list of elements and every in-range random
draw `pick`, `generate_route_based_on_elements` records one new Route whose
point sequence consists of two points, both the drawn element's centre, and
whose start and end both equal that centre. -/
theorem generate_route_based_on_elements_spec (m : RouteManager)
    (elements : List Element) (pick : ℕ) (el : Element)
    (h : elements.get? pick = some el) :
    generate_route_based_on_elements m elements pick =
      some ⟨m.routes ++ [⟨[el.center, el.center], el.center, el.center⟩]⟩ := by
  unfold generate_route_based_on_elements
  rw [h]
  simp [RouteManager.add_route_points]

/-- Witness for C7 (amended) at a concrete one-element list. -/
theorem generate_route_based_on_elements_spec_witness :
    generate_route_based_on_elements ⟨[]⟩ [elDemo] 0 =
      some ⟨[⟨[elDemo.center, elDemo.center], elDemo.center, elDemo.center⟩]⟩ :=
  generate_route_based_on_elements_spec ⟨[]⟩ [elDemo] 0 elDemo (by simp)

/-- C6 counterexample: the points (1/100000, 0) and (0, 0) agree in both
coordinates after rounding to 4 decimal places, yet the dataclass equality
(which compares exact coordinates) reports them as different. -/
theorem point_rounding_counterexample :
    round4 (Point.mk (1/100000) 0).x = round4 (Point.mk 0 0).x ∧
    round4 (Point.mk (1/100000) 0).y = round4 (Point.mk 0 0).y ∧
    point_py_eq ⟨1/100000, 0⟩ ⟨0, 0⟩ = false := by
  refine ⟨?_, ?_, ?_⟩
  · norm_num [round4, round_eq]
  · norm_num [round4, round_eq]
  · norm_num [point_py_eq]

/-- C6 (amended): Point equality and hashing are structural on the exact
coordinates (no rounding is applied): two Points compare equal exactly when
both coordinates are exactly equal, and then their hash keys agree. -/
theorem point_eq_exact_structural (p q : Point) :
    (point_py_eq p q = true ↔ p.x = q.x ∧ p.y = q.y) ∧
    (point_py_eq p q = true → point_hash_key p = point_hash_key q) := by
  constructor
  · simp [point_py_eq]
  · intro h
    obtain ⟨hx, hy⟩ := by simpa [point_py_eq] using h
    simp [point_hash_key, hx, hy]

/-- Witness for C6 (amended) at a concrete equal pair. -/
theorem point_eq_exact_structural_witness :
    point_hash_key ⟨1, 2⟩ = point_hash_key ⟨1, 2⟩ :=
  (point_eq_exact_structural ⟨1, 2⟩ ⟨1, 2⟩).2 (by simp [point_py_eq])

/-- The full-quadrant arctangent lies in (-pi, pi] whenever its arguments
are not both zero. -/
theorem atan2_range (y x : ℝ) (h : ¬(x = 0 ∧ y = 0)) :
    -Real.pi < atan2 y x ∧ atan2 y x ≤ Real.pi := by
  have hpi := Real.pi_pos
  unfold atan2
  split_ifs with h1 h2 h3 h4 h5
  · have ha := Real.arctan_lt_pi_div_two (y / x)
    have hb := Real.neg_pi_div_two_lt_arctan (y / x)
    constructor <;> linarith
  · obtain ⟨hx, hy⟩ := h2
    have hq : y / x ≤ 0 := div_nonpos_iff.2 (Or.inl ⟨hy, hx.le⟩)
    have hm : Real.arctan (y / x) ≤ 0 := by
      have := Real.arctan_strictMono.monotone hq
      rwa [Real.arctan_zero] at this
    have hb := Real.neg_pi_div_two_lt_arctan (y / x)
    constructor <;> linarith
  · obtain ⟨hx, hy⟩ := h3
    have hq : 0 < y / x := div_pos_iff.2 (Or.inr ⟨hy, hx⟩)
    have hm : 0 < Real.arctan (y / x) := by
      have := Real.arctan_strictMono hq
      rwa [Real.arctan_zero] at this
    have ha := Real.arctan_lt_pi_div_two (y / x)
    constructor <;> linarith
  · constructor <;> linarith
  · constructor <;> linarith
  · exfalso
    apply h
    have hx : x = 0 := by
      rcases lt_trichotomy x 0 with hlt | heq | hgt
      · rcases le_or_lt 0 y with hy | hy
        · exact absurd ⟨hlt, hy⟩ h2
        · exact absurd ⟨hlt, hy⟩ h3
      · exact heq
      · exact absurd hgt h1
    have hy : y = 0 := by
      rcases lt_trichotomy y 0 with hlt | heq | hgt
      · exact absurd ⟨hx, hlt⟩ h5
      · exact heq
      · exact absurd ⟨hx, hgt⟩ h4
    exact ⟨hx, hy⟩

/-- A concrete straight-down segment, from (0,0) to (0,-1). -/
def segDown : Segment := ⟨⟨0, 0⟩, ⟨0, -1⟩, {}⟩

/-- C5 counterexample: the segment from (0,0) to (0,-1) has distinct
endpoints, yet `get_angle` returns -90 degrees, which does not lie in
[0, 360). -/
theorem get_angle_counterexample :
    segDown.end2 ≠ segDown.start ∧
    segDown.get_angle = -90 ∧
    ¬(0 ≤ segDown.get_angle ∧ segDown.get_angle < 360) := by
  have hpi := Real.pi_pos
  have hne := Real.pi_ne_zero
  have h : segDown.get_angle = -90 := by
    unfold Segment.get_angle segDown atan2
    norm_num
    field_simp
    ring
  refine ⟨by simp [segDown], h, ?_⟩
  rw [h]
  norm_num

/-- C5 (amended): for every segment with distinct endpoints, `get_angle`
returns the angle of `end - start` in degrees, in the interval (-180, 180]
(the range of `math.degrees(math.atan2(...))`), not [0, 360). -/
theorem get_angle_range (s : Segment) (h : s.end2 ≠ s.start) :
    -180 < s.get_angle ∧ s.get_angle ≤ 180 := by
  have hpi := Real.pi_pos
  have hne : ¬(((s.end2.x : ℝ) - (s.start.x : ℝ)) = 0 ∧
      ((s.end2.y : ℝ) - (s.start.y : ℝ)) = 0) := by
    rintro ⟨hx, hy⟩
    apply h
    have hx2 : s.end2.x = s.start.x := by exact_mod_cast sub_eq_zero.1 hx
    have hy2 : s.end2.y = s.start.y := by exact_mod_cast sub_eq_zero.1 hy
    exact Point.ext hx2 hy2
  have hr := atan2_range ((s.end2.y : ℝ) - (s.start.y : ℝ))
    ((s.end2.x : ℝ) - (s.start.x : ℝ)) hne
  unfold Segment.get_angle
  constructor
  · rw [lt_div_iff₀ hpi]
    nlinarith [hr.1]
  · rw [div_le_iff₀ hpi]
    nlinarith [hr.2]

/-- Witness for C5 (amended) at the concrete diagonal segment
(0,0) to (1,1). -/
theorem get_angle_range_witness :
    -180 < (Segment.mk ⟨0, 0⟩ ⟨1, 1⟩ {}).get_angle ∧
    (Segment.mk ⟨0, 0⟩ ⟨1, 1⟩ {}).get_angle ≤ 180 :=
  get_angle_range ⟨⟨0, 0⟩, ⟨1, 1⟩, {}⟩ (by simp)

/-- Mirror of `simworld.utils.priority_queue.PriorityQueue`: a list of
segments in insertion order. -/
structure PriorityQueue where
  elements : List Segment
deriving DecidableEq, Repr

namespace PriorityQueue

/-- Mirror of `PriorityQueue.enqueue`: append a segment. -/
def enqueue (pq : PriorityQueue) (s : Segment) : PriorityQueue :=
  ⟨pq.elements ++ [s]⟩

/-- The scan loop of `PriorityQueue.dequeue` (utils/priority_queue.py):
walks the list with a running minimum `min_t` (initially `float('inf')`,
modelled by `⊤` in `WithTop ℚ`) and its first index `min_idx`; the index
counter `i` tracks the enumeration. Updates only on a strict decrease, so
the first occurrence of the minimum wins. -/
def dequeue_scan : List Segment → WithTop ℚ → ℕ → ℕ → ℕ
  | [], _, min_idx, _ => min_idx
  | s :: rest, min_t, min_idx, i =>
    if (s.q.t : WithTop ℚ) < min_t then dequeue_scan rest (s.q.t : ℚ) i (i + 1)
    else dequeue_scan rest min_t min_idx (i + 1)

/-- Mirror of `PriorityQueue.dequeue`: `none` on an empty queue, otherwise
pops (returns together with the remaining list) the element at the index
found by the scan. -/
def dequeue (pq : PriorityQueue) : Option (Segment × PriorityQueue) :=
  match pq.elements with
  | [] => none
  | _ :: _ =>
    (pq.elements.get? (dequeue_scan pq.elements ⊤ 0 0)).map
      fun s => (s, ⟨pq.elements.eraseIdx (dequeue_scan pq.elements ⊤ 0 0)⟩)

/-- Mirror of `PriorityQueue.empty`. -/
def empty (pq : PriorityQueue) : Bool := pq.elements.length == 0

/-- Characterisation of the scan: either no element strictly beats the
incoming minimum and the incoming index is returned, or the scan returns
`i₀ + k` for the first position `k` of the list minimum, which beats the
incoming minimum. -/
theorem dequeue_scan_cases (l : List Segment) (mt : WithTop ℚ) (mi i₀ : ℕ) :
    (dequeue_scan l mt mi i₀ = mi ∧
      ∀ j (hj : j < l.length), mt ≤ ((l.get ⟨j, hj⟩).q.t : WithTop ℚ)) ∨
    (∃ k, ∃ hk : k < l.length,
      dequeue_scan l mt mi i₀ = i₀ + k ∧
      ((l.get ⟨k, hk⟩).q.t : WithTop ℚ) < mt ∧
      (∀ j (hj : j < l.length), (l.get ⟨k, hk⟩).q.t ≤ (l.get ⟨j, hj⟩).q.t) ∧
      (∀ j (hj : j < l.length), j < k →
        (l.get ⟨k, hk⟩).q.t < (l.get ⟨j, hj⟩).q.t)) := by
  induction l generalizing mt mi i₀ with
  | nil =>
    left
    exact ⟨rfl, fun j hj => absurd hj (Nat.not_lt_zero j)⟩
  | cons s rest ih =>
    by_cases hs : (s.q.t : WithTop ℚ) < mt
    · rcases ih (s.q.t : ℚ) i₀ (i₀ + 1) with ⟨heq, hall⟩ | ⟨k, hk, heq, hlt, hmin, hfirst⟩
      · right
        refine ⟨0, Nat.succ_pos _, ?_, hs, ?_, ?_⟩
        · simp [dequeue_scan, hs, heq]
        · intro j hj
          cases j with
          | zero => exact le_refl _
          | succ j =>
            have := hall j (Nat.lt_of_succ_lt_succ hj)
            exact_mod_cast this
        · intro j hj hj0
          exact absurd hj0 (Nat.not_lt_zero j)
      · right
        refine ⟨k + 1, Nat.succ_lt_succ hk, ?_, ?_, ?_, ?_⟩
        · simp only [dequeue_scan, if_pos hs, heq]
          omega
        · exact lt_trans hlt hs
        · intro j hj
          cases j with
          | zero =>
            have : ((rest.get ⟨k, hk⟩).q.t : WithTop ℚ) < (s.q.t : ℚ) := hlt
            exact le_of_lt (by exact_mod_cast this)
          | succ j => exact hmin j (Nat.lt_of_succ_lt_succ hj)
        · intro j hj hjk
          cases j with
          | zero =>
            have : ((rest.get ⟨k, hk⟩).q.t : WithTop ℚ) < (s.q.t : ℚ) := hlt
            exact (by exact_mod_cast this)
          | succ j => exact hfirst j (Nat.lt_of_succ_lt_succ hj) (Nat.lt_of_succ_lt_succ hjk)
    · rcases ih mt mi (i₀ + 1) with ⟨heq, hall⟩ | ⟨k, hk, heq, hlt, hmin, hfirst⟩
      · left
        refine ⟨?_, ?_⟩
        · simp [dequeue_scan, hs, heq]
        · intro j hj
          cases j with
          | zero => exact le_of_not_lt hs
          | succ j => exact hall j (Nat.lt_of_succ_lt_succ hj)
      · right
        refine ⟨k + 1, Nat.succ_lt_succ hk, ?_, hlt, ?_, ?_⟩
        · simp only [dequeue_scan, if_neg hs, heq]
          omega
        · intro j hj
          cases j with
          | zero =>
            have h1 : mt ≤ (s.q.t : WithTop ℚ) := le_of_not_lt hs
            have h2 : ((rest.get ⟨k, hk⟩).q.t : WithTop ℚ) < (s.q.t : ℚ) :=
              lt_of_lt_of_le hlt h1
            exact le_of_lt (by exact_mod_cast h2)
          | succ j => exact hmin j (Nat.lt_of_succ_lt_succ hj)
        · intro j hj hjk
          cases j with
          | zero =>
            have h1 : mt ≤ (s.q.t : WithTop ℚ) := le_of_not_lt hs
            have h2 : ((rest.get ⟨k, hk⟩).q.t : WithTop ℚ) < (s.q.t : ℚ) :=
              lt_of_lt_of_le hlt h1
            exact (by exact_mod_cast h2)
          | succ j => exact hfirst j (Nat.lt_of_succ_lt_succ hj) (Nat.lt_of_succ_lt_succ hjk)

/-- C3: `dequeue` returns `none` exactly when the queue is empty; otherwise
it removes and returns the element at some index `i` whose `t` value is
minimal over the whole queue, and every earlier element has a strictly
larger `t` — i.e. among ties for the minimum the earliest-enqueued element
is returned. -/
theorem dequeue_spec (pq : PriorityQueue) :
    (dequeue pq = none ↔ pq.elements = []) ∧
    (∀ s rest, dequeue pq = some (s, rest) →
      ∃ i, ∃ hi : i < pq.elements.length,
        s = pq.elements.get ⟨i, hi⟩ ∧
        rest.elements = pq.elements.eraseIdx i ∧
        (∀ j (hj : j < pq.elements.length),
          s.q.t ≤ (pq.elements.get ⟨j, hj⟩).q.t) ∧
        (∀ j (hj : j < pq.elements.length), j < i →
          s.q.t < (pq.elements.get ⟨j, hj⟩).q.t)) := by
  obtain ⟨l⟩ := pq
  cases l with
  | nil =>
    constructor
    · simp [dequeue]
    · intro s rest h
      simp [dequeue] at h
  | cons s0 tail =>
    rcases dequeue_scan_cases (s0 :: tail) ⊤ 0 0 with ⟨heq, hall⟩ |
      ⟨k, hk, heq, hlt, hmin, hfirst⟩
    · exact absurd (hall 0 (Nat.succ_pos _)) (by simp)
    · constructor
      · constructor
        · intro hnone
          simp only [dequeue] at hnone
          rw [heq, Nat.zero_add, List.get?_eq_get hk] at hnone
          simp at hnone
        · intro habs
          exact absurd habs (by simp)
      · intro s rest hsome
        simp only [dequeue] at hsome
        rw [heq, Nat.zero_add, List.get?_eq_get hk] at hsome
        simp only [Option.map_some'] at hsome
        injection hsome with hpair
        injection hpair with hs hrest
        subst hs
        exact ⟨k, hk, rfl, by rw [← hrest], hmin, hfirst⟩

/-- Queue element with t = 5, enqueued first. -/
def segA : Segment := ⟨⟨0, 0⟩, ⟨1, 0⟩, ⟨false, 5⟩⟩

/-- Queue element with t = 3, enqueued second (earliest of the tied pair). -/
def segB : Segment := ⟨⟨0, 0⟩, ⟨2, 0⟩, ⟨false, 3⟩⟩

/-- Queue element with t = 3, enqueued third. -/
def segC : Segment := ⟨⟨0, 0⟩, ⟨3, 0⟩, ⟨false, 3⟩⟩

/-- A concrete queue with a tie for the minimum t. -/
def pqDemo : PriorityQueue := ⟨[segA, segB, segC]⟩

/-- Witness for C3: on the concrete queue [t=5, t=3, t=3] the dequeued
element is the second one — minimal t, earliest among the tie. -/
theorem dequeue_spec_witness :
    ∃ i, ∃ hi : i < pqDemo.elements.length,
      segB = pqDemo.elements.get ⟨i, hi⟩ ∧
      (PriorityQueue.mk [segA, segC]).elements = pqDemo.elements.eraseIdx i ∧
      (∀ j (hj : j < pqDemo.elements.length),
        segB.q.t ≤ (pqDemo.elements.get ⟨j, hj⟩).q.t) ∧
      (∀ j (hj : j < pqDemo.elements.length), j < i →
        segB.q.t < (pqDemo.elements.get ⟨j, hj⟩).q.t) :=
  (dequeue_spec pqDemo).2 segB ⟨[segA, segC]⟩ (by
    have h1 : ((5 : ℚ) : WithTop ℚ) < ⊤ := WithTop.coe_lt_top 5
    have h2 : ((3 : ℚ) : WithTop ℚ) < ((5 : ℚ) : WithTop ℚ) := by
      exact_mod_cast (by norm_num : (3 : ℚ) < 5)
    have h3 : ¬((3 : ℚ) : WithTop ℚ) < ((3 : ℚ) : WithTop ℚ) := lt_irrefl _
    show dequeue pqDemo = some (segB, PriorityQueue.mk [segA, segC])
    simp only [dequeue, dequeue_scan, pqDemo, segA, segB, segC]
    rw [if_pos h1, if_pos h2, if_neg h3]
    simp)

end PriorityQueue

/-- Mirror of the element-node id computation in
`DataExporter.convert_layout_to_world` (utils/data_exporter.py): for each
element record the code draws `num = random.randint(1, 4)` from the global
`random` module — which is never seeded anywhere in the repository — and
forms the id `GEN_` + `element['type'][:-1]` + `num` + `_` + node index.
The RNG draw is the explicit argument `num`. -/
def element_world_id (etype : String) (num : ℕ) (idx : ℕ) : String :=
  "GEN_" ++ etype.dropRight 1 ++ toString num ++ "_" ++ toString idx

/-- The element-node ids produced by the exporter loop for a list of
element types, given the sequence of global-RNG draws and the starting
node index. -/
def element_world_ids : List String → List ℕ → ℕ → List String
  | t :: ts, n :: ns, idx => element_world_id t n idx :: element_world_ids ts ns (idx + 1)
  | _, _, _ => []

/-- C1: the exporter's `progen_world.json` node ids are not a function of
the seed and configuration: for the same layout (one element of type
`Trees`) two different draws of the unseeded global `random.randint(1, 4)`
produce different node ids, hence different file bytes. -/
theorem exporter_ids_depend_on_global_rng :
    element_world_ids ["Trees"] [1] 0 = ["GEN_Tree1_0"] ∧
    element_world_ids ["Trees"] [2] 0 = ["GEN_Tree2_0"] ∧
    element_world_ids ["Trees"] [1] 0 ≠ element_world_ids ["Trees"] [2] 0 := by
  refine ⟨rfl, rfl, by decide⟩

/-- Mirror of `simworld.utils.vector.Vector` as used by `map.py`: a 2-D
coordinate pair. (`__post_init__` rounding applies at construction sites;
the graph operations below only read the stored coordinates.) -/
structure Vec where
  x : ℚ
  y : ℚ
deriving DecidableEq, Repr

/-- Mirror of `Vector.distance`: `((dx)**2 + (dy)**2) ** 0.5`. -/
noncomputable def Vec.distance (a b : Vec) : ℝ :=
  Real.sqrt (((a.x - b.x) ^ 2 + (a.y - b.y) ^ 2 : ℚ) : ℝ)

/-- Mirror of `Vector.__eq__`: tolerant comparison within 1e-3 on both
coordinates. -/
def Vec.py_eq (a b : Vec) : Prop :=
  |a.x - b.x| < 1/1000 ∧ |a.y - b.y| < 1/1000

instance (a b : Vec) : Decidable (Vec.py_eq a b) := by
  unfold Vec.py_eq
  infer_instance

/-- The comparison `distance < threshold` made by
`Map.connect_adjacent_roads`, as an exact real proposition. -/
def Vec.dist_lt (a b : Vec) (t : ℚ) : Prop := Vec.distance a b < (t : ℝ)

/-- The square-root comparison reduces to a rational comparison, which
makes it decidable. -/
theorem Vec.dist_lt_iff (a b : Vec) (t : ℚ) :
    Vec.dist_lt a b t ↔ 0 < t ∧ (a.x - b.x) ^ 2 + (a.y - b.y) ^ 2 < t ^ 2 := by
  unfold Vec.dist_lt Vec.distance
  constructor
  · intro h
    have ht : (0 : ℝ) < (t : ℝ) := lt_of_le_of_lt (Real.sqrt_nonneg _) h
    refine ⟨by exact_mod_cast ht, ?_⟩
    have := (Real.sqrt_lt' ht).mp h
    exact_mod_cast this
  · rintro ⟨ht, hlt⟩
    have ht' : (0 : ℝ) < (t : ℝ) := by exact_mod_cast ht
    refine (Real.sqrt_lt' ht').mpr ?_
    exact_mod_cast hlt

instance (a b : Vec) (t : ℚ) : Decidable (Vec.dist_lt a b t) :=
  decidable_of_iff _ (Vec.dist_lt_iff a b t).symm

/-- The comparison is symmetric in the two endpoints. -/
theorem Vec.dist_lt_symm (a b : Vec) (t : ℚ) (h : Vec.dist_lt a b t) :
    Vec.dist_lt b a t := by
  rw [Vec.dist_lt_iff] at h ⊢
  refine ⟨h.1, ?_⟩
  have := h.2
  nlinarith [this]

/-- Mirror of `map.Node`: a position and a type string. Equality of Python
nodes is equality of positions (`Node.__eq__`). -/
structure MapNode where
  position : Vec
  type : String
deriving DecidableEq, Repr

/-- Mirror of `map.Edge`: the two endpoint nodes. The stored `weight`
(Euclidean distance) is derived data, recomputed by `MapEdge.weight`. -/
structure MapEdge where
  node1 : MapNode
  node2 : MapNode
deriving DecidableEq, Repr

/-- The weight `node1.position.distance(node2.position)` computed by the
Python `Edge.__init__`. -/
noncomputable def MapEdge.weight (e : MapEdge) : ℝ :=
  Vec.distance e.node1.position e.node2.position

/-- Mirror of `Edge.__eq__`: edges are equal when they join the same
positions, in either order (positions compared by the tolerant
`Vector.__eq__`). -/
def MapEdge.py_eq (e f : MapEdge) : Prop :=
  (Vec.py_eq e.node1.position f.node1.position ∧
    Vec.py_eq e.node2.position f.node2.position) ∨
  (Vec.py_eq e.node1.position f.node2.position ∧
    Vec.py_eq e.node2.position f.node1.position)

instance (e f : MapEdge) : Decidable (MapEdge.py_eq e f) := by
  unfold MapEdge.py_eq
  infer_instance

/-- Mirror of `map.Map`: the node collection (in iteration order) and the
edge collection. The derived `adjacency_list` bookkeeping is not modelled:
no condition of `connect_adjacent_roads` reads it. -/
structure CityMap where
  nodes : List MapNode
  edges : List MapEdge
deriving Repr

/-- Mirror of `Map.has_edge`: membership of an equal edge (`Edge.__eq__`)
in the edge collection. (Python tests set membership by hash bucket first;
since `Edge.__hash__` is exact while `__eq__` is tolerant, the Python test
can return False where this one returns True — in that case the loop below
merely appends one more equal edge, so the connectivity conclusion is the
same under either reading.) -/
def CityMap.has_edge (m : CityMap) (e : MapEdge) : Bool :=
  m.edges.any fun f => decide (MapEdge.py_eq f e)

/-- Mirror of `Map.add_edge` restricted to the edge collection. -/
def CityMap.add_edge (m : CityMap) (e : MapEdge) : CityMap :=
  { m with edges := m.edges ++ [e] }

/-- The ordered pairs `(nodes[i], nodes[j])` with `i < j`, in the order the
double loop of `connect_adjacent_roads` visits them. -/
def pairsAfter : List MapNode → List (MapNode × MapNode)
  | [] => []
  | n :: rest => rest.map (fun m => (n, m)) ++ pairsAfter rest

/-- The body of the double loop of `Map.connect_adjacent_roads`: link the
pair when the distance is under the threshold and no equal edge exists. -/
def connectStep (threshold : ℚ) (acc : CityMap) (p : MapNode × MapNode) :
    CityMap :=
  if Vec.dist_lt p.1.position p.2.position threshold ∧
      acc.has_edge ⟨p.1, p.2⟩ = false then
    acc.add_edge ⟨p.1, p.2⟩
  else acc

/-- Mirror of `Map.connect_adjacent_roads` (map/map.py): threshold is
`sidewalk_offset * 2 + 100`; every pair `i < j` of the node list is
visited once. -/
def CityMap.connect_adjacent_roads (m : CityMap) (sidewalk_offset : ℚ) :
    CityMap :=
  (pairsAfter m.nodes).foldl (connectStep (sidewalk_offset * 2 + 100)) m

/-- The tolerant position equality is reflexive. -/
theorem Vec.py_eq_refl (a : Vec) : Vec.py_eq a a := by
  unfold Vec.py_eq
  norm_num

/-- Edge equality against a literal pair is insensitive to the pair's
orientation. -/
theorem MapEdge.py_eq_swap (e : MapEdge) (a b : MapNode)
    (h : MapEdge.py_eq e ⟨a, b⟩) : MapEdge.py_eq e ⟨b, a⟩ := by
  rcases h with ⟨h1, h2⟩ | ⟨h1, h2⟩
  · exact Or.inr ⟨h1, h2⟩
  · exact Or.inl ⟨h1, h2⟩

/-- Reading of `has_edge` as an existential over the edge collection. -/
theorem CityMap.has_edge_iff (m : CityMap) (e : MapEdge) :
    m.has_edge e = true ↔ ∃ f ∈ m.edges, MapEdge.py_eq f e := by
  unfold CityMap.has_edge
  simp [List.any_eq_true]

/-- Edges already present survive the connect loop. -/
theorem connect_fold_mem (threshold : ℚ) (pairs : List (MapNode × MapNode))
    (m : CityMap) (e : MapEdge) (h : e ∈ m.edges) :
    e ∈ (pairs.foldl (connectStep threshold) m).edges := by
  induction pairs generalizing m with
  | nil => exact h
  | cons q rest ih =>
    apply ih
    unfold connectStep
    split_ifs with hc
    · exact List.mem_append_left _ h
    · exact h

/-- A true `has_edge` survives the connect loop. -/
theorem connect_fold_has_edge (threshold : ℚ)
    (pairs : List (MapNode × MapNode)) (m : CityMap) (e : MapEdge)
    (h : m.has_edge e = true) :
    (pairs.foldl (connectStep threshold) m).has_edge e = true := by
  rw [CityMap.has_edge_iff] at h ⊢
  obtain ⟨f, hf, hfe⟩ := h
  exact ⟨f, connect_fold_mem threshold pairs m f hf, hfe⟩

/-- After the loop processes a pair within the threshold, an equal edge is
present. -/
theorem connect_fold_pair (threshold : ℚ) (pairs : List (MapNode × MapNode))
    (m : CityMap) (p : MapNode × MapNode) (hp : p ∈ pairs)
    (hd : Vec.dist_lt p.1.position p.2.position threshold) :
    (pairs.foldl (connectStep threshold) m).has_edge ⟨p.1, p.2⟩ = true := by
  induction pairs generalizing m with
  | nil => exact absurd hp (List.not_mem_nil p)
  | cons q rest ih =>
    rcases List.mem_cons.mp hp with hq | hrest
    · subst hq
      rw [List.foldl_cons]
      apply connect_fold_has_edge
      unfold connectStep
      split_ifs with hc
      · rw [CityMap.has_edge_iff]
        exact ⟨⟨p.1, p.2⟩, List.mem_append_right _ (List.mem_singleton_self _),
          Or.inl ⟨Vec.py_eq_refl _, Vec.py_eq_refl _⟩⟩
      · rcases Decidable.not_and_iff_or_not.mp hc with h1 | h2
        · exact absurd hd h1
        · simpa using h2
    · rw [List.foldl_cons]
      apply ih
      exact hrest

/-- Every ordered pair `i < j` of the node list is visited by the loop. -/
theorem mem_pairsAfter (l : List MapNode) (i j : ℕ) (hi : i < l.length)
    (hj : j < l.length) (hij : i < j) :
    (l.get ⟨i, hi⟩, l.get ⟨j, hj⟩) ∈ pairsAfter l := by
  induction l generalizing i j with
  | nil => exact absurd hi (Nat.not_lt_zero i)
  | cons n rest ih =>
    cases i with
    | zero =>
      cases j with
      | zero => exact absurd hij (lt_irrefl 0)
      | succ j =>
        apply List.mem_append_left
        exact List.mem_map.mpr ⟨rest.get ⟨j, Nat.lt_of_succ_lt_succ hj⟩,
          List.get_mem rest _ _, rfl⟩
    | succ i =>
      cases j with
      | zero => exact absurd hij (by omega)
      | succ j =>
        apply List.mem_append_right
        exact ih i j (Nat.lt_of_succ_lt_succ hi) (Nat.lt_of_succ_lt_succ hj)
          (Nat.lt_of_succ_lt_succ hij)

/-- C8: after `connect_adjacent_roads` returns, every pair of distinct
nodes of the map whose Euclidean distance is strictly below
`2 * sidewalk_offset + 100` is joined by an (undirected, per `Edge.__eq__`)
edge of the map. -/
theorem connect_adjacent_roads_spec (m : CityMap) (offset : ℚ) (i j : ℕ)
    (hi : i < m.nodes.length) (hj : j < m.nodes.length) (hij : i ≠ j)
    (hd : Vec.dist_lt (m.nodes.get ⟨i, hi⟩).position
      (m.nodes.get ⟨j, hj⟩).position (offset * 2 + 100)) :
    ∃ e ∈ (m.connect_adjacent_roads offset).edges,
      MapEdge.py_eq e ⟨m.nodes.get ⟨i, hi⟩, m.nodes.get ⟨j, hj⟩⟩ := by
  unfold CityMap.connect_adjacent_roads
  rcases Nat.lt_or_ge i j with hlt | hge
  · have hmem := mem_pairsAfter m.nodes i j hi hj hlt
    have := connect_fold_pair (offset * 2 + 100) (pairsAfter m.nodes) m
      (m.nodes.get ⟨i, hi⟩, m.nodes.get ⟨j, hj⟩) hmem hd
    rw [CityMap.has_edge_iff] at this
    exact this
  · have hlt : j < i := Nat.lt_of_le_of_ne hge (Ne.symm hij)
    have hmem := mem_pairsAfter m.nodes j i hj hi hlt
    have := connect_fold_pair (offset * 2 + 100) (pairsAfter m.nodes) m
      (m.nodes.get ⟨j, hj⟩, m.nodes.get ⟨i, hi⟩) hmem
      (Vec.dist_lt_symm _ _ _ hd)
    rw [CityMap.has_edge_iff] at this
    obtain ⟨f, hf, hfe⟩ := this
    exact ⟨f, hf, MapEdge.py_eq_swap f _ _ hfe⟩

/-- A concrete two-node map with no edges. -/
def mapDemo : CityMap :=
  ⟨[⟨⟨0, 0⟩, "normal"⟩, ⟨⟨3, 4⟩, "normal"⟩], []⟩

/-- Witness for C8: with sidewalk offset 0 (threshold 100) the two nodes at
distance 5 get connected. -/
theorem connect_adjacent_roads_spec_witness :
    ∃ e ∈ (mapDemo.connect_adjacent_roads 0).edges,
      MapEdge.py_eq e ⟨⟨⟨0, 0⟩, "normal"⟩, ⟨⟨3, 4⟩, "normal"⟩⟩ :=
  connect_adjacent_roads_spec mapDemo 0 0 1 (by norm_num [mapDemo])
    (by norm_num [mapDemo]) (by norm_num)
    ((Vec.dist_lt_iff _ _ _).mpr (by norm_num [mapDemo]))

/-- Horizontal midline of a bounds, `self.bounds.x + self.bounds.width / 2`
in `QuadTree.get_relevant_nodes` (utils/quadtree.py). -/
def midX (b : Bounds) : ℚ := b.x + b.width / 2

/-- Vertical midline of a bounds, `self.bounds.y + self.bounds.height / 2`. -/
def midY (b : Bounds) : ℚ := b.y + b.height / 2

/-- The `get_relevant_nodes` predicate `rect.x <= mid_x` (left column). -/
def relLeft (b r : Bounds) : Prop := r.x ≤ midX b

/-- The `get_relevant_nodes` predicate `rect.x + rect.width > mid_x`. -/
def relRight (b r : Bounds) : Prop := midX b < r.x + r.width

/-- The `get_relevant_nodes` predicate `rect.y <= mid_y` (called `top`). -/
def relTop (b r : Bounds) : Prop := r.y ≤ midY b

/-- The `get_relevant_nodes` predicate `rect.y + rect.height > mid_y`. -/
def relBottom (b r : Bounds) : Prop := midY b < r.y + r.height

instance (b r : Bounds) : Decidable (relLeft b r) := by
  unfold relLeft; infer_instance

instance (b r : Bounds) : Decidable (relRight b r) := by
  unfold relRight; infer_instance

instance (b r : Bounds) : Decidable (relTop b r) := by
  unfold relTop; infer_instance

instance (b r : Bounds) : Decidable (relBottom b r) := by
  unfold relBottom; infer_instance

/-- Quadrant bounds created by `QuadTree.split`: `nodes[0]` is
`(x + w/2, y, w/2, h/2)`. -/
def quadBounds0 (b : Bounds) : Bounds :=
  ⟨b.x + b.width / 2, b.y, b.width / 2, b.height / 2, 0⟩

/-- Quadrant `nodes[1]`: `(x, y, w/2, h/2)`. -/
def quadBounds1 (b : Bounds) : Bounds :=
  ⟨b.x, b.y, b.width / 2, b.height / 2, 0⟩

/-- Quadrant `nodes[2]`: `(x, y + h/2, w/2, h/2)`. -/
def quadBounds2 (b : Bounds) : Bounds :=
  ⟨b.x, b.y + b.height / 2, b.width / 2, b.height / 2, 0⟩

/-- Quadrant `nodes[3]`: `(x + w/2, y + h/2, w/2, h/2)`. -/
def quadBounds3 (b : Bounds) : Bounds :=
  ⟨b.x + b.width / 2, b.y + b.height / 2, b.width / 2, b.height / 2, 0⟩

/-- Mirror of `simworld.utils.quadtree.QuadTree`, indexed by the remaining
split depth `max_levels - level` (the source's split guard
`self.level < self.max_levels` holds exactly when the index is positive).
`leaf` is a node whose `self.nodes` are all `None`; `node` is a split node
(`split` always fills all four children). The parallel lists
`self.objects` / `self.items` are one list of pairs `entries`; a split
node's own `entries` are the stale lists the source keeps after `split`
(never cleared, never read again by `insert`/`retrieve`). -/
inductive QT (T : Type) : ℕ → Type where
  | leaf {d : ℕ} (bounds : Bounds) (entries : List (Bounds × T)) : QT T d
  | node {d : ℕ} (bounds : Bounds) (entries : List (Bounds × T))
      (c0 c1 c2 c3 : QT T d) : QT T (d + 1)

namespace QT

/-- Mirror of `QuadTree.insert` (utils/quadtree.py), with the per-tree
constant `max_objects` passed as `mo`. A split node delegates to every
relevant child; a leaf appends and then splits (redistributing all its
entries, the new one included, into the four fresh quadrant children) when
the entry count exceeds `max_objects` and the depth budget allows it. -/
def insert (T : Type) (mo : ℕ) : (d : ℕ) → QT T d → Bounds → T → QT T d
  | 0, .leaf b es, r, it => .leaf b (es ++ [(r, it)])
  | d + 1, .leaf b es, r, it =>
    if mo < (es ++ [(r, it)]).length then
      .node b (es ++ [(r, it)])
        ((es ++ [(r, it)]).foldl
          (fun c p => if relRight b p.1 ∧ relTop b p.1 then
            insert T mo d c p.1 p.2 else c) (.leaf (quadBounds0 b) []))
        ((es ++ [(r, it)]).foldl
          (fun c p => if relLeft b p.1 ∧ relTop b p.1 then
            insert T mo d c p.1 p.2 else c) (.leaf (quadBounds1 b) []))
        ((es ++ [(r, it)]).foldl
          (fun c p => if relLeft b p.1 ∧ relBottom b p.1 then
            insert T mo d c p.1 p.2 else c) (.leaf (quadBounds2 b) []))
        ((es ++ [(r, it)]).foldl
          (fun c p => if relRight b p.1 ∧ relBottom b p.1 then
            insert T mo d c p.1 p.2 else c) (.leaf (quadBounds3 b) []))
    else .leaf b (es ++ [(r, it)])
  | d + 1, .node b es c0 c1 c2 c3, r, it =>
    .node b es
      (if relRight b r ∧ relTop b r then insert T mo d c0 r it else c0)
      (if relLeft b r ∧ relTop b r then insert T mo d c1 r it else c1)
      (if relLeft b r ∧ relBottom b r then insert T mo d c2 r it else c2)
      (if relRight b r ∧ relBottom b r then insert T mo d c3 r it else c3)

/-- Mirror of `QuadTree.retrieve`: a node without children returns all its
items; a split node concatenates the retrievals of the relevant children in
the order `get_relevant_nodes` lists them (`nodes[1], nodes[2], nodes[0],
nodes[3]`). -/
def retrieve {T : Type} : {d : ℕ} → QT T d → Bounds → List T
  | _, .leaf _ es, _ => es.map Prod.snd
  | _, .node b _ c0 c1 c2 c3, r =>
    (if relLeft b r ∧ relTop b r then retrieve c1 r else []) ++
    (if relLeft b r ∧ relBottom b r then retrieve c2 r else []) ++
    (if relRight b r ∧ relTop b r then retrieve c0 r else []) ++
    (if relRight b r ∧ relBottom b r then retrieve c3 r else [])

/-- Pop of the first pair whose item equals the target: the source's
`index = self.items.index(item); self.items.pop(index);
self.objects.pop(index)`. -/
def removeEntry {T : Type} [DecidableEq T] :
    List (Bounds × T) → T → List (Bounds × T)
  | [], _ => []
  | p :: rest, it => if p.2 = it then rest else p :: removeEntry rest it

/-- Mirror of `QuadTree.remove`: if the item is stored at this node, pop it
here, recurse into every relevant child (results ignored) and report
success; otherwise try the relevant children in `get_relevant_nodes` order
(`1, 2, 0, 3`), stopping at the first success. -/
def remove {T : Type} [DecidableEq T] :
    {d : ℕ} → QT T d → Bounds → T → QT T d × Bool
  | _, .leaf b es, _, it =>
    if it ∈ es.map Prod.snd then (.leaf b (removeEntry es it), true)
    else (.leaf b es, false)
  | _, .node b es c0 c1 c2 c3, r, it =>
    if it ∈ es.map Prod.snd then
      (.node b (removeEntry es it)
        (if relRight b r ∧ relTop b r then (remove c0 r it).1 else c0)
        (if relLeft b r ∧ relTop b r then (remove c1 r it).1 else c1)
        (if relLeft b r ∧ relBottom b r then (remove c2 r it).1 else c2)
        (if relRight b r ∧ relBottom b r then (remove c3 r it).1 else c3),
        true)
    else
      let t1 := if relLeft b r ∧ relTop b r then remove c1 r it
        else (c1, false)
      if t1.2 then (.node b es c0 t1.1 c2 c3, true)
      else
        let t2 := if relLeft b r ∧ relBottom b r then remove c2 r it
          else (c2, false)
        if t2.2 then (.node b es c0 c1 t2.1 c3, true)
        else
          let t0 := if relRight b r ∧ relTop b r then remove c0 r it
            else (c0, false)
          if t0.2 then (.node b es t0.1 c1 c2 c3, true)
          else
            let t3 := if relRight b r ∧ relBottom b r then remove c3 r it
              else (c3, false)
            if t3.2 then (.node b es c0 c1 c2 t3.1, true)
            else (.node b es c0 c1 c2 c3, false)

/-- Repeated insertion (the "any sequence of insert calls" of the claim). -/
def insertAll (T : Type) (mo d : ℕ) (t : QT T d) (ops : List (Bounds × T)) :
    QT T d :=
  ops.foldl (fun acc p => insert T mo d acc p.1 p.2) t

end QT

/-- A bounds with nonnegative extents (an actual rectangle). -/
def boundsNonneg (r : Bounds) : Prop := 0 ≤ r.width ∧ 0 ≤ r.height

/-- Closed axis-aligned overlap of two rectangles — the claim's notion of
"stored Bounds overlaps q". -/
def boundsOverlap (r q : Bounds) : Prop :=
  r.x ≤ q.x + q.width ∧ q.x ≤ r.x + r.width ∧
  r.y ≤ q.y + q.height ∧ q.y ≤ r.y + r.height

namespace QT

/-- The live entries of a tree: entries at unsplit nodes. (A split node's
own entry lists are stale copies the source never reads again.) -/
def leafPairs {T : Type} : {d : ℕ} → QT T d → List (Bounds × T)
  | _, .leaf _ es => es
  | _, .node _ _ c0 c1 c2 c3 =>
    leafPairs c0 ++ leafPairs c1 ++ leafPairs c2 ++ leafPairs c3

/-- Structural invariant maintained by `insert`: every live entry has a
rectangle with nonnegative extents, and at a split node every live entry
below is stored in every child whose quadrant its rectangle is relevant
to. -/
def Inv {T : Type} : {d : ℕ} → QT T d → Prop
  | _, .leaf _ es => ∀ p ∈ es, boundsNonneg p.1
  | _, .node b _ c0 c1 c2 c3 =>
    Inv c0 ∧ Inv c1 ∧ Inv c2 ∧ Inv c3 ∧
    ∀ p, p ∈ leafPairs c0 ++ leafPairs c1 ++ leafPairs c2 ++ leafPairs c3 →
      (relRight b p.1 ∧ relTop b p.1 → p ∈ leafPairs c0) ∧
      (relLeft b p.1 ∧ relTop b p.1 → p ∈ leafPairs c1) ∧
      (relLeft b p.1 ∧ relBottom b p.1 → p ∈ leafPairs c2) ∧
      (relRight b p.1 ∧ relBottom b p.1 → p ∈ leafPairs c3)

/-- A rectangle with nonnegative extents is relevant to at least one column
and one row. -/
theorem rel_total (b r : Bounds) (h : boundsNonneg r) :
    (relLeft b r ∨ relRight b r) ∧ (relTop b r ∨ relBottom b r) := by
  obtain ⟨hw, hh⟩ := h
  unfold relLeft relRight relTop relBottom
  constructor
  · rcases le_or_lt r.x (midX b) with hx | hx
    · exact Or.inl hx
    · exact Or.inr (by linarith)
  · rcases le_or_lt r.y (midY b) with hy | hy
    · exact Or.inl hy
    · exact Or.inr (by linarith)

/-- Two overlapping rectangles with nonnegative extents share a relevant
column and a relevant row of any midline. -/
theorem rel_shared (b r q : Bounds) (hr : boundsNonneg r)
    (hq : boundsNonneg q) (hov : boundsOverlap r q) :
    ((relLeft b r ∧ relLeft b q) ∨ (relRight b r ∧ relRight b q)) ∧
    ((relTop b r ∧ relTop b q) ∨ (relBottom b r ∧ relBottom b q)) := by
  obtain ⟨hrw, hrh⟩ := hr
  obtain ⟨hqw, hqh⟩ := hq
  obtain ⟨h1, h2, h3, h4⟩ := hov
  unfold relLeft relRight relTop relBottom
  constructor
  · rcases le_or_lt r.x (midX b) with hxr | hxr
    · rcases le_or_lt q.x (midX b) with hxq | hxq
      · exact Or.inl ⟨hxr, hxq⟩
      · exact Or.inr ⟨by linarith, by linarith⟩
    · rcases le_or_lt q.x (midX b) with hxq | hxq
      · exact Or.inr ⟨by linarith, by linarith⟩
      · exact Or.inr ⟨by linarith, by linarith⟩
  · rcases le_or_lt r.y (midY b) with hyr | hyr
    · rcases le_or_lt q.y (midY b) with hyq | hyq
      · exact Or.inl ⟨hyr, hyq⟩
      · exact Or.inr ⟨by linarith, by linarith⟩
    · rcases le_or_lt q.y (midY b) with hyq | hyq
      · exact Or.inr ⟨by linarith, by linarith⟩
      · exact Or.inr ⟨by linarith, by linarith⟩

/-- Specification of a conditional child insertion. -/
theorem cond_insert_spec {T : Type} (mo d : ℕ) (cond : Prop) [Decidable cond]
    (c : QT T d) (r : Bounds) (it : T)
    (hins : Inv c → boundsNonneg r →
      Inv (insert T mo d c r it) ∧
      ∀ p, p ∈ leafPairs (insert T mo d c r it) ↔
        p ∈ leafPairs c ∨ p = (r, it))
    (hc : Inv c) (hnn : boundsNonneg r) :
    Inv (if cond then insert T mo d c r it else c) ∧
    ∀ p, p ∈ leafPairs (if cond then insert T mo d c r it else c) ↔
      p ∈ leafPairs c ∨ (cond ∧ p = (r, it)) := by
  by_cases h : cond
  · rw [if_pos h]
    obtain ⟨hi, hiff⟩ := hins hc hnn
    refine ⟨hi, fun p => ?_⟩
    rw [hiff p]
    tauto
  · rw [if_neg h]
    refine ⟨hc, fun p => ?_⟩
    tauto

/-- Specification of the redistribution fold used by `split`: starting from
a fresh child, fold the entries, inserting those relevant to the child's
quadrant. -/
theorem distrib_spec {T : Type} (mo d : ℕ)
    (sx sy : Bounds → Bounds → Prop)
    [∀ b r, Decidable (sx b r)] [∀ b r, Decidable (sy b r)] (b : Bounds)
    (hins : ∀ (t : QT T d) (r : Bounds) (it : T), Inv t → boundsNonneg r →
      Inv (insert T mo d t r it) ∧
      ∀ p, p ∈ leafPairs (insert T mo d t r it) ↔
        p ∈ leafPairs t ∨ p = (r, it))
    (es : List (Bounds × T)) :
    ∀ (c : QT T d), Inv c → (∀ p ∈ es, boundsNonneg p.1) →
      Inv (es.foldl
        (fun c p => if sx b p.1 ∧ sy b p.1 then insert T mo d c p.1 p.2
          else c) c) ∧
      ∀ p, p ∈ leafPairs (es.foldl
          (fun c p => if sx b p.1 ∧ sy b p.1 then insert T mo d c p.1 p.2
            else c) c) ↔
        p ∈ leafPairs c ∨ (p ∈ es ∧ sx b p.1 ∧ sy b p.1) := by
  induction es with
  | nil =>
    intro c hc _
    refine ⟨hc, fun p => ?_⟩
    simp
  | cons e rest ih =>
    intro c hc hnn
    simp only [List.foldl_cons]
    by_cases hsel : sx b e.1 ∧ sy b e.1
    · rw [if_pos hsel]
      have h1 := hins c e.1 e.2 hc (hnn e (List.mem_cons_self e rest))
      have h2 := ih (insert T mo d c e.1 e.2) h1.1
        (fun p hp => hnn p (List.mem_cons_of_mem e hp))
      refine ⟨h2.1, fun p => ?_⟩
      rw [h2.2 p, h1.2 p]
      constructor
      · rintro ((hp | hpe) | hrest)
        · exact Or.inl hp
        · exact Or.inr ⟨by simp [hpe], by rw [hpe]; exact hsel⟩
        · exact Or.inr ⟨List.mem_cons_of_mem _ hrest.1, hrest.2⟩
      · rintro (hp | ⟨hmem, hps⟩)
        · exact Or.inl (Or.inl hp)
        · rcases List.mem_cons.mp hmem with he | hrest
          · exact Or.inl (Or.inr (by simp [he]))
          · exact Or.inr ⟨hrest, hps⟩
    · rw [if_neg hsel]
      have h2 := ih c hc (fun p hp => hnn p (List.mem_cons_of_mem e hp))
      refine ⟨h2.1, fun p => ?_⟩
      rw [h2.2 p]
      constructor
      · rintro (hp | hrest)
        · exact Or.inl hp
        · exact Or.inr ⟨List.mem_cons_of_mem _ hrest.1, hrest.2⟩
      · rintro (hp | ⟨hmem, hps⟩)
        · exact Or.inl hp
        · rcases List.mem_cons.mp hmem with he | hrest
          · exact absurd (he ▸ hps) hsel
          · exact Or.inr ⟨hrest, hps⟩

/-- Insertion preserves the structural invariant and adds exactly the new
pair to the live entries. -/
theorem insert_spec {T : Type} (mo : ℕ) :
    ∀ (d : ℕ) (t : QT T d) (r : Bounds) (it : T), Inv t → boundsNonneg r →
    Inv (insert T mo d t r it) ∧
    ∀ p, p ∈ leafPairs (insert T mo d t r it) ↔
      p ∈ leafPairs t ∨ p = (r, it) := by
  intro d
  induction d with
  | zero =>
    intro t r it hInv hnn
    cases t with
    | leaf b es =>
      simp only [Inv] at hInv
      simp only [insert, Inv, leafPairs]
      refine ⟨?_, fun p => ?_⟩
      · intro p hp
        rcases List.mem_append.mp hp with h | h
        · exact hInv p h
        · rw [List.mem_singleton.mp h]
          exact hnn
      · rw [List.mem_append, List.mem_singleton]
  | succ d ih =>
    intro t r it hInv hnn
    cases t with
    | leaf b es =>
      simp only [Inv] at hInv
      have hnn' : ∀ p ∈ es ++ [(r, it)], boundsNonneg p.1 := by
        intro p hp
        rcases List.mem_append.mp hp with h | h
        · exact hInv p h
        · rw [List.mem_singleton.mp h]
          exact hnn
      by_cases hlen : mo < (es ++ [(r, it)]).length
      · have hInvEmpty : ∀ bb : Bounds, Inv (QT.leaf (T := T) (d := d) bb []) := by
          intro bb
          simp [Inv]
        have K0 := distrib_spec mo d relRight relTop b ih (es ++ [(r, it)])
          (.leaf (quadBounds0 b) []) (hInvEmpty _) hnn'
        have K1 := distrib_spec mo d relLeft relTop b ih (es ++ [(r, it)])
          (.leaf (quadBounds1 b) []) (hInvEmpty _) hnn'
        have K2 := distrib_spec mo d relLeft relBottom b ih (es ++ [(r, it)])
          (.leaf (quadBounds2 b) []) (hInvEmpty _) hnn'
        have K3 := distrib_spec mo d relRight relBottom b ih (es ++ [(r, it)])
          (.leaf (quadBounds3 b) []) (hInvEmpty _) hnn'
        simp only [insert]
        rw [if_pos hlen]
        simp only [Inv, leafPairs]
        refine ⟨⟨K0.1, K1.1, K2.1, K3.1, ?_⟩, fun p => ?_⟩
        · intro p hp
          have hp' : p ∈ es ++ [(r, it)] := by
            simp only [List.mem_append] at hp
            rcases hp with ((hh | hh) | hh) | hh
            · rcases (K0.2 p).mp hh with hfalse | ⟨hm, _⟩
              · simp [leafPairs] at hfalse
              · exact hm
            · rcases (K1.2 p).mp hh with hfalse | ⟨hm, _⟩
              · simp [leafPairs] at hfalse
              · exact hm
            · rcases (K2.2 p).mp hh with hfalse | ⟨hm, _⟩
              · simp [leafPairs] at hfalse
              · exact hm
            · rcases (K3.2 p).mp hh with hfalse | ⟨hm, _⟩
              · simp [leafPairs] at hfalse
              · exact hm
          exact ⟨fun hf => (K0.2 p).mpr (Or.inr ⟨hp', hf⟩),
            fun hf => (K1.2 p).mpr (Or.inr ⟨hp', hf⟩),
            fun hf => (K2.2 p).mpr (Or.inr ⟨hp', hf⟩),
            fun hf => (K3.2 p).mpr (Or.inr ⟨hp', hf⟩)⟩
        · constructor
          · intro hp
            have hp' : p ∈ es ++ [(r, it)] := by
              simp only [List.mem_append] at hp
              rcases hp with ((hh | hh) | hh) | hh
              · rcases (K0.2 p).mp hh with hfalse | ⟨hm, _⟩
                · simp [leafPairs] at hfalse
                · exact hm
              · rcases (K1.2 p).mp hh with hfalse | ⟨hm, _⟩
                · simp [leafPairs] at hfalse
                · exact hm
              · rcases (K2.2 p).mp hh with hfalse | ⟨hm, _⟩
                · simp [leafPairs] at hfalse
                · exact hm
              · rcases (K3.2 p).mp hh with hfalse | ⟨hm, _⟩
                · simp [leafPairs] at hfalse
                · exact hm
            rcases List.mem_append.mp hp' with h | h
            · exact Or.inl h
            · exact Or.inr (List.mem_singleton.mp h)
          · intro hp
            have hp' : p ∈ es ++ [(r, it)] := by
              rcases hp with h | h
              · exact List.mem_append_left _ h
              · exact List.mem_append_right _ (by simp [h])
            obtain ⟨hx, hy⟩ := rel_total b p.1 (hnn' p hp')
            simp only [List.mem_append]
            rcases hx with hL | hR <;> rcases hy with hT | hB
            · have := (K1.2 p).mpr (Or.inr ⟨hp', hL, hT⟩)
              tauto
            · have := (K2.2 p).mpr (Or.inr ⟨hp', hL, hB⟩)
              tauto
            · have := (K0.2 p).mpr (Or.inr ⟨hp', hR, hT⟩)
              tauto
            · have := (K3.2 p).mpr (Or.inr ⟨hp', hR, hB⟩)
              tauto
      · simp only [insert]
        rw [if_neg hlen]
        simp only [Inv, leafPairs]
        refine ⟨?_, fun p => ?_⟩
        · exact hnn'
        · rw [List.mem_append, List.mem_singleton]
    | node b es c0 c1 c2 c3 =>
      simp only [Inv] at hInv
      obtain ⟨h0, h1, h2, h3, hplace⟩ := hInv
      have H0 := cond_insert_spec mo d (relRight b r ∧ relTop b r) c0 r it
        (ih c0 r it) h0 hnn
      have H1 := cond_insert_spec mo d (relLeft b r ∧ relTop b r) c1 r it
        (ih c1 r it) h1 hnn
      have H2 := cond_insert_spec mo d (relLeft b r ∧ relBottom b r) c2 r it
        (ih c2 r it) h2 hnn
      have H3 := cond_insert_spec mo d (relRight b r ∧ relBottom b r) c3 r it
        (ih c3 r it) h3 hnn
      simp only [insert, Inv, leafPairs]
      refine ⟨⟨H0.1, H1.1, H2.1, H3.1, ?_⟩, fun p => ?_⟩
      · intro p hp
        have hp' : (p ∈ leafPairs c0 ++ leafPairs c1 ++ leafPairs c2 ++
            leafPairs c3) ∨ p = (r, it) := by
          simp only [List.mem_append] at hp ⊢
          rcases hp with ((hh | hh) | hh) | hh
          · rcases (H0.2 p).mp hh with hm | ⟨_, hpe⟩
            · tauto
            · exact Or.inr hpe
          · rcases (H1.2 p).mp hh with hm | ⟨_, hpe⟩
            · tauto
            · exact Or.inr hpe
          · rcases (H2.2 p).mp hh with hm | ⟨_, hpe⟩
            · tauto
            · exact Or.inr hpe
          · rcases (H3.2 p).mp hh with hm | ⟨_, hpe⟩
            · tauto
            · exact Or.inr hpe
        rcases hp' with hold | hpe
        · have hpl := hplace p hold
          exact ⟨fun hf => (H0.2 p).mpr (Or.inl (hpl.1 hf)),
            fun hf => (H1.2 p).mpr (Or.inl (hpl.2.1 hf)),
            fun hf => (H2.2 p).mpr (Or.inl (hpl.2.2.1 hf)),
            fun hf => (H3.2 p).mpr (Or.inl (hpl.2.2.2 hf))⟩
        · subst hpe
          exact ⟨fun hf => (H0.2 _).mpr (Or.inr ⟨hf, rfl⟩),
            fun hf => (H1.2 _).mpr (Or.inr ⟨hf, rfl⟩),
            fun hf => (H2.2 _).mpr (Or.inr ⟨hf, rfl⟩),
            fun hf => (H3.2 _).mpr (Or.inr ⟨hf, rfl⟩)⟩
      · constructor
        · intro hp
          simp only [List.mem_append] at hp ⊢
          rcases hp with ((hh | hh) | hh) | hh
          · rcases (H0.2 p).mp hh with hm | ⟨_, hpe⟩
            · tauto
            · exact Or.inr hpe
          · rcases (H1.2 p).mp hh with hm | ⟨_, hpe⟩
            · tauto
            · exact Or.inr hpe
          · rcases (H2.2 p).mp hh with hm | ⟨_, hpe⟩
            · tauto
            · exact Or.inr hpe
          · rcases (H3.2 p).mp hh with hm | ⟨_, hpe⟩
            · tauto
            · exact Or.inr hpe
        · intro hp
          rcases hp with hold | hpe
          · simp only [List.mem_append] at hold ⊢
            rcases hold with ((hh | hh) | hh) | hh
            · have := (H0.2 p).mpr (Or.inl hh)
              tauto
            · have := (H1.2 p).mpr (Or.inl hh)
              tauto
            · have := (H2.2 p).mpr (Or.inl hh)
              tauto
            · have := (H3.2 p).mpr (Or.inl hh)
              tauto
          · subst hpe
            obtain ⟨hx, hy⟩ := rel_total b r hnn
            simp only [List.mem_append]
            rcases hx with hL | hR <;> rcases hy with hT | hB
            · have := (H1.2 _).mpr (Or.inr ⟨⟨hL, hT⟩, rfl⟩)
              tauto
            · have := (H2.2 _).mpr (Or.inr ⟨⟨hL, hB⟩, rfl⟩)
              tauto
            · have := (H0.2 _).mpr (Or.inr ⟨⟨hR, hT⟩, rfl⟩)
              tauto
            · have := (H3.2 _).mpr (Or.inr ⟨⟨hR, hB⟩, rfl⟩)
              tauto

/-- Retrieval soundness for a single invariant-respecting tree: a live
entry overlapping the query is returned. -/
theorem retrieve_sound {T : Type} :
    ∀ (d : ℕ) (t : QT T d) (q r : Bounds) (it : T),
    Inv t → (r, it) ∈ leafPairs t → boundsNonneg r → boundsNonneg q →
    boundsOverlap r q → it ∈ retrieve t q := by
  intro d
  induction d with
  | zero =>
    intro t q r it hInv hp hr hq hov
    cases t with
    | leaf b es =>
      simp only [leafPairs] at hp
      simp only [retrieve]
      exact List.mem_map.mpr ⟨(r, it), hp, rfl⟩
  | succ d ih =>
    intro t q r it hInv hp hr hq hov
    cases t with
    | leaf b es =>
      simp only [leafPairs] at hp
      simp only [retrieve]
      exact List.mem_map.mpr ⟨(r, it), hp, rfl⟩
    | node b es c0 c1 c2 c3 =>
      simp only [Inv] at hInv
      obtain ⟨h0, h1, h2, h3, hplace⟩ := hInv
      simp only [leafPairs] at hp
      have hpl := hplace (r, it) hp
      obtain ⟨hxs, hys⟩ := rel_shared b r q hr hq hov
      simp only [retrieve, List.mem_append]
      rcases hxs with ⟨hLr, hLq⟩ | ⟨hRr, hRq⟩ <;>
        rcases hys with ⟨hTr, hTq⟩ | ⟨hBr, hBq⟩
      · have hm := ih c1 q r it h1 (hpl.2.1 ⟨hLr, hTr⟩) hr hq hov
        have hin : it ∈ (if relLeft b q ∧ relTop b q then retrieve c1 q
            else []) := by
          rw [if_pos ⟨hLq, hTq⟩]
          exact hm
        exact Or.inl (Or.inl (Or.inl hin))
      · have hm := ih c2 q r it h2 (hpl.2.2.1 ⟨hLr, hBr⟩) hr hq hov
        have hin : it ∈ (if relLeft b q ∧ relBottom b q then retrieve c2 q
            else []) := by
          rw [if_pos ⟨hLq, hBq⟩]
          exact hm
        exact Or.inl (Or.inl (Or.inr hin))
      · have hm := ih c0 q r it h0 (hpl.1 ⟨hRr, hTr⟩) hr hq hov
        have hin : it ∈ (if relRight b q ∧ relTop b q then retrieve c0 q
            else []) := by
          rw [if_pos ⟨hRq, hTq⟩]
          exact hm
        exact Or.inl (Or.inr hin)
      · have hm := ih c3 q r it h3 (hpl.2.2.2 ⟨hRr, hBr⟩) hr hq hov
        have hin : it ∈ (if relRight b q ∧ relBottom b q then retrieve c3 q
            else []) := by
          rw [if_pos ⟨hRq, hBq⟩]
          exact hm
        exact Or.inr hin

/-- A whole insertion sequence preserves the invariant and its live entries
are the initial ones plus everything inserted. -/
theorem insertAll_spec {T : Type} (mo d : ℕ) :
    ∀ (ops : List (Bounds × T)) (t : QT T d), Inv t →
    (∀ p ∈ ops, boundsNonneg p.1) →
    Inv (insertAll T mo d t ops) ∧
    ∀ p, p ∈ leafPairs (insertAll T mo d t ops) ↔
      p ∈ leafPairs t ∨ p ∈ ops := by
  intro ops
  induction ops with
  | nil =>
    intro t hInv _
    refine ⟨hInv, fun p => ?_⟩
    simp [insertAll]
  | cons e rest ih =>
    intro t hInv hnn
    have h1 := insert_spec mo d t e.1 e.2 hInv (hnn e (List.mem_cons_self e rest))
    have h2 := ih (insert T mo d t e.1 e.2) h1.1
      (fun p hp => hnn p (List.mem_cons_of_mem e hp))
    have hfold : insertAll T mo d t (e :: rest) =
        insertAll T mo d (insert T mo d t e.1 e.2) rest := rfl
    rw [hfold]
    refine ⟨h2.1, fun p => ?_⟩
    rw [h2.2 p, h1.2 p]
    constructor
    · rintro ((hp | hpe) | hrest)
      · exact Or.inl hp
      · exact Or.inr (by simp [hpe])
      · exact Or.inr (List.mem_cons_of_mem _ hrest)
    · rintro (hp | hmem)
      · exact Or.inl (Or.inl hp)
      · rcases List.mem_cons.mp hmem with he | hrest
        · exact Or.inl (Or.inr (by simp [he]))
        · exact Or.inr hrest

end QT

/-- C2: quadtree soundness. For every quadtree built by a sequence of
`insert(bounds, item)` calls starting from a fresh tree (all inserted
rectangles and the query being actual rectangles, i.e. of nonnegative
extents), `retrieve(q)` contains every inserted item whose stored bounds
overlaps `q`. -/
theorem quadtree_retrieve_sound (T : Type) (mo d : ℕ) (b : Bounds)
    (ops : List (Bounds × T)) (r q : Bounds) (it : T)
    (hmem : (r, it) ∈ ops)
    (hnn : ∀ p ∈ ops, boundsNonneg p.1)
    (hq : boundsNonneg q)
    (hov : boundsOverlap r q) :
    it ∈ QT.retrieve (QT.insertAll T mo d (.leaf b []) ops) q := by
  have h := QT.insertAll_spec mo d ops (.leaf b []) (by simp [QT.Inv]) hnn
  have hp : (r, it) ∈ QT.leafPairs (QT.insertAll T mo d (.leaf b []) ops) :=
    (h.2 (r, it)).mpr (Or.inr hmem)
  exact QT.retrieve_sound d _ q r it h.1 hp (hnn (r, it) hmem) hq hov

/-- Witness for C2 on a concrete one-insert tree and an overlapping
query. -/
theorem quadtree_retrieve_sound_witness :
    (7 : ℕ) ∈ QT.retrieve
      (QT.insertAll ℕ 10 4 (.leaf ⟨0, 0, 100, 100, 0⟩ [])
        [(⟨0, 0, 10, 10, 0⟩, 7)]) ⟨5, 5, 10, 10, 0⟩ :=
  quadtree_retrieve_sound ℕ 10 4 ⟨0, 0, 100, 100, 0⟩
    [(⟨0, 0, 10, 10, 0⟩, 7)] ⟨0, 0, 10, 10, 0⟩ ⟨5, 5, 10, 10, 0⟩ 7
    (List.mem_singleton_self _)
    (by
      intro p hp
      rw [List.mem_singleton.mp hp]
      exact ⟨by norm_num, by norm_num⟩)
    ⟨by norm_num, by norm_num⟩
    ⟨by norm_num, by norm_num, by norm_num, by norm_num⟩

/-- Mirror of `simworld.citygen.element.element_manager.ElementManager`:
the element list and the element quadtree (whose depth budget and
`max_objects` come from the configuration). -/
structure ElementManager (d : ℕ) where
  elements : List Element
  element_quadtree : QT Element d

/-- Mirror of `ElementManager.add_element`: append to the list and insert
into the quadtree under the element's bounds. -/
def ElementManager.add_element {d : ℕ} (m : ElementManager d) (mo : ℕ)
    (e : Element) : ElementManager d :=
  { elements := m.elements ++ [e],
    element_quadtree := QT.insert Element mo d m.element_quadtree e.bounds e }

/-- Mirror of `ElementManager.remove_element`: `list.remove` raises for a
missing element, the `except ValueError` branch only prints — so when the
element is absent nothing changes (and the quadtree call is never reached);
when present, the first occurrence is removed from the list and
`QuadTree.remove` runs on the quadtree. -/
def ElementManager.remove_element {d : ℕ} (m : ElementManager d)
    (e : Element) : ElementManager d :=
  if e ∈ m.elements then
    { elements := m.elements.erase e,
      element_quadtree := (QT.remove m.element_quadtree e.bounds e).1 }
  else m

/-- C10 (amended): removing an absent element leaves the manager unchanged
(no exception escapes); removing a present element removes its first
occurrence from the element list (so an element present exactly once is
gone from the list) and invokes `QuadTree.remove` on the quadtree — which
may leave duplicate copies of the element retrievable when its bounds span
several quadrants (see the counterexample). -/
theorem remove_element_spec {d : ℕ} (m : ElementManager d) (e : Element) :
    (e ∉ m.elements → m.remove_element e = m) ∧
    (e ∈ m.elements →
      (m.remove_element e).elements = m.elements.erase e ∧
      (m.remove_element e).element_quadtree =
        (QT.remove m.element_quadtree e.bounds e).1 ∧
      (m.elements.count e = 1 → e ∉ (m.remove_element e).elements)) := by
  constructor
  · intro h
    unfold ElementManager.remove_element
    rw [if_neg h]
  · intro h
    unfold ElementManager.remove_element
    rw [if_pos h]
    refine ⟨rfl, rfl, ?_⟩
    intro hcount hmem
    have h2 : 0 < (m.elements.erase e).count e := List.count_pos_iff.mpr hmem
    rw [List.count_erase_self, hcount] at h2
    omega

/-- Element stored entirely in the left-top quadrant. -/
def elQ1 : Element := Element.mk' ⟨"Lamps", 1, 1⟩ ⟨10, 10, 10, 10, 0⟩

/-- Element stored entirely in the right-bottom quadrant. -/
def elQ2 : Element := Element.mk' ⟨"Signs", 1, 1⟩ ⟨60, 60, 10, 10, 0⟩

/-- Element whose bounds straddle the vertical midline: stored in both the
left-top and the right-top child. -/
def elQ3 : Element := Element.mk' ⟨"Trees", 2, 2⟩ ⟨45, 10, 10, 10, 0⟩

/-- A concrete manager with `max_objects = 1`, `max_levels = 1`, holding
the three elements above (the tree has split). -/
def emDemo : ElementManager 1 :=
  (((ElementManager.mk [] (.leaf ⟨0, 0, 100, 100, 0⟩ [])).add_element 1 elQ1
    ).add_element 1 elQ2).add_element 1 elQ3

/-- Witness for C10 (amended) at the concrete manager: removing the present
element `elQ3` yields the erased list, the quadtree after
`QuadTree.remove`, and `elQ3` is gone from the element list. -/
theorem remove_element_spec_witness :
    (emDemo.remove_element elQ3).elements = emDemo.elements.erase elQ3 ∧
    (emDemo.remove_element elQ3).element_quadtree =
      (QT.remove emDemo.element_quadtree elQ3.bounds elQ3).1 ∧
    (emDemo.elements.count elQ3 = 1 →
      elQ3 ∉ (emDemo.remove_element elQ3).elements) :=
  (remove_element_spec emDemo elQ3).2 (by
    simp [emDemo, ElementManager.add_element])

/-- C10 counterexample: `elQ3` is present and `remove_element` removes it
from the element list, yet the element is still returned by a quadtree
retrieval afterwards — its copy in the right-top child survives, because
`QuadTree.remove` stops at the first child that reports success. So the
element is not removed from the quadtree. -/
theorem remove_element_leaves_quadtree_copy :
    elQ3 ∈ emDemo.elements ∧
    elQ3 ∉ (emDemo.remove_element elQ3).elements ∧
    elQ3 ∈ QT.retrieve (emDemo.remove_element elQ3).element_quadtree
      elQ3.bounds := by
  norm_num [emDemo, ElementManager.add_element, ElementManager.remove_element,
    elQ1, elQ2, elQ3, Element.mk', Element.post_init,
    QT.insert, QT.remove, QT.retrieve, QT.removeEntry,
    relLeft, relRight, relTop, relBottom, midX, midY,
    quadBounds0, quadBounds1, quadBounds2, quadBounds3,
    List.erase_cons]
